import Mathlib

/-!
Shallow embedding of the retrieval-augmented-generation pipeline of the
JotItNow note-taking application:

* the chunker `splitIntoChunks` of src/screens/SummarizeScreen.tsx,
* the vector store operations `findSimilarChunks` and `deleteNoteEmbeddings`
  of src/services/database.ts,
* the retrieval/deduplication sequence of `handleSend` in
  src/screens/ChatScreen.tsx,
* the per-chunk batch loop of `processAndStoreEmbeddings` in
  src/screens/SummarizeScreen.tsx,
* `cosineSimilarity` of src/services/vector.ts.

Text is modelled as `List Char`, embedding vectors as lists of rationals
(reals for `cosineSimilarity`, whose contract is about real arithmetic),
and the fallible JavaScript pieces as `Option`/`Except` values.
-/

namespace JotItNow

/-! ## Chunker: splitIntoChunks (src/screens/SummarizeScreen.tsx) -/

/-- Sentence-terminal characters of the chunker regex
`[^.!?]+[.!?]+` used with the global flag in `splitIntoChunks`. -/
def isPunct (c : Char) : Bool := c == '.' || c == '!' || c == '?'

/-- Whitespace as matched by the JavaScript `\s` class and `String.trim`,
restricted to the ASCII whitespace forms. -/
def isWs (c : Char) : Bool := c == ' ' || c == '\t' || c == '\n' || c == '\r'

/-- One left-to-right pass of the global regex `[^.!?]+[.!?]+` over the
input: `body` is the run of non-terminal characters read so far and `punct`
the run of terminal characters after it. A match `body ++ punct` is emitted
when the punctuation run ends; a trailing `body` with no terminal
punctuation is discarded, exactly as `String.match` behaves. -/
def sentAux (body punct : List Char) : List Char → List (List Char)
  | [] => if punct = [] then [] else [body ++ punct]
  | c :: cs =>
    if isPunct c then
      if body = [] ∧ punct = [] then sentAux [] [] cs
      else sentAux body (punct ++ [c]) cs
    else
      if punct = [] then sentAux (body ++ [c]) [] cs
      else (body ++ punct) :: sentAux [c] [] cs

/-- All matches of `text.match(/[^.!?]+[.!?]+/g)`. -/
def matchSentences (cs : List Char) : List (List Char) := sentAux [] [] cs

/-- The sentence list of `splitIntoChunks`:
`text.match(...) || [text]` — when the regex finds no sentence, the whole
input is used as the single sentence. -/
def sentencesOf (cs : List Char) : List (List Char) :=
  if matchSentences cs = [] then [cs] else matchSentences cs

/-- JavaScript `String.trim` on the modelled whitespace class. -/
def trim (cs : List Char) : List Char :=
  ((cs.dropWhile isWs).reverse.dropWhile isWs).reverse

/-- Maximal whitespace-free runs of a character list; `cur` is the run
being read. Models `split(/\s+/)` on a trimmed string. -/
def runsAux (cur : List Char) : List Char → List (List Char)
  | [] => if cur.isEmpty then [] else [cur]
  | c :: cs =>
    if isWs c then
      if cur.isEmpty then runsAux [] cs else cur :: runsAux [] cs
    else runsAux (cur ++ [c]) cs

/-- The whitespace-separated words of a character list. -/
def wordRuns (cs : List Char) : List (List Char) := runsAux [] cs

/-- The chunker word counter `s.trim().split(/\s+/).length`: splitting the
empty string yields a single empty piece (count 1), a non-empty trimmed
string yields its whitespace-separated words. -/
def wordCount (cs : List Char) : Nat :=
  if trim cs = [] then 1 else (wordRuns (trim cs)).length

/-- The sentence-accumulating loop of `splitIntoChunks`: `cur` is
`currentChunk` and `acc` the chunks pushed so far. When appending the next
sentence makes the word count exceed `target` and the buffer is non-empty
(JavaScript truthiness of a string), the trimmed buffer is pushed and the
sentence starts a new buffer; at the end the buffer is pushed when its trim
is non-empty. -/
def chunkLoop (target : Nat) : List (List Char) → List Char → List (List Char) → List (List Char)
  | [], cur, acc => if trim cur = [] then acc else acc ++ [trim cur]
  | s :: ss, cur, acc =>
    if wordCount (cur ++ s) > target ∧ cur ≠ [] then
      chunkLoop target ss s (acc ++ [trim cur])
    else
      chunkLoop target ss (cur ++ s) acc

/-- The chunker `splitIntoChunks(text, targetLength = 300)` of
src/screens/SummarizeScreen.tsx. -/
def splitIntoChunks (text : List Char) (targetLength : Nat := 300) : List (List Char) :=
  chunkLoop targetLength (sentencesOf text) [] []

/-- The non-whitespace content of a character list, used to compare texts
up to whitespace normalization. -/
def removeWs (cs : List Char) : List Char := cs.filter (fun c => !isWs c)

/-! ## Vector store (src/services/database.ts) -/

/-- A row of the `embeddings` vec0 virtual table:
`id TEXT PRIMARY KEY, noteId TEXT, chunk TEXT, embedding FLOAT[384]`.
Vector components are modelled as rationals. -/
structure EmbeddingRecord where
  id : String
  noteId : String
  chunk : String
  embedding : List ℚ
deriving DecidableEq, Repr

/-- One result row of `findSimilarChunks`: `{noteId, chunk, distance}`. -/
structure SimilarRow where
  noteId : String
  chunk : String
  distance : ℚ
deriving DecidableEq, Repr

/-- Squared Euclidean distance between two vectors, a strictly monotone
image of the metric the vec0 `embedding MATCH ?` query ranks rows by. -/
def sqDist (a b : List ℚ) : ℚ := (List.zipWith (fun x y => (x - y) ^ 2) a b).sum

/-- The result row a stored record contributes to a search with query
embedding `e`. -/
def rowOf (e : List ℚ) (r : EmbeddingRecord) : SimilarRow :=
  ⟨r.noteId, r.chunk, sqDist e r.embedding⟩

/-- Insertion into a distance-sorted list, after every row at smaller or
equal distance. -/
def insertRow (r : SimilarRow) : List SimilarRow → List SimilarRow
  | [] => [r]
  | x :: xs => if r.distance < x.distance then r :: x :: xs else x :: insertRow r xs

/-- Ascending-distance ordering of the candidate rows; the `k` nearest
neighbours are the first `k` entries of this list. -/
def sortByDistance : List SimilarRow → List SimilarRow
  | [] => []
  | x :: xs => insertRow x (sortByDistance xs)

/-- The search `findSimilarChunks(embedding, limit = 5)` of
src/services/database.ts. A `null` embedding returns `[]` before the store
is consulted; an uninitialized store (`db = none`) logs and returns `[]`;
otherwise the vec0 query
`SELECT noteId, chunk, distance FROM embeddings WHERE embedding MATCH ? AND k = ?`
returns the `limit` nearest rows by distance. The function has no `noteId`
parameter and the query has no `noteId` predicate: every stored record is a
candidate. -/
def findSimilarChunks (db : Option (List EmbeddingRecord))
    (embedding : Option (List ℚ)) (limit : Nat := 5) : List SimilarRow :=
  match embedding with
  | none => []
  | some e =>
    match db with
    | none => []
    | some recs => (sortByDistance (recs.map (rowOf e))).take limit

/-- The deletion `deleteNoteEmbeddings(noteId)` of src/services/database.ts:
`DELETE FROM embeddings WHERE noteId = ?`, acting on the record list of an
initialized store. -/
def deleteNoteEmbeddings (recs : List EmbeddingRecord) (noteId : String) :
    List EmbeddingRecord :=
  recs.filter (fun r => r.noteId != noteId)

/-! ## Retrieval session (src/screens/ChatScreen.tsx, handleSend) -/

/-- The retrieval outcome of one `handleSend` turn: the chunk texts
surfaced into the context block of this turn, and the updated `usedChunks`
set (a JavaScript `Set`, modelled as a list queried by membership). -/
structure TurnResult where
  contextChunks : List String
  used : List String
deriving Repr

/-- The filter-and-record sequence of `handleSend`: retrieved chunks whose
text is already in `usedChunks` are removed, the remaining chunks are
surfaced (their texts joined into the context block), and their texts are
added to `usedChunks`. -/
def prepareTurn (used : List String) (similarChunks : List SimilarRow) : TurnResult :=
  ⟨(similarChunks.filter (fun r => !(used.contains r.chunk))).map SimilarRow.chunk,
    used ++ (similarChunks.filter (fun r => !(used.contains r.chunk))).map SimilarRow.chunk⟩

/-- Successive `handleSend` turns of one chat session: each element of the
argument is the `findSimilarChunks` result of one turn, and the result
lists each turn's surfaced context chunks. -/
def runSession (used : List String) : List (List SimilarRow) → List (List String)
  | [] => []
  | sim :: rest =>
    (prepareTurn used sim).contextChunks :: runSession (prepareTurn used sim).used rest

/-! ## Batch embedding (src/screens/SummarizeScreen.tsx,
processAndStoreEmbeddings) -/

/-- The per-chunk loop of `processAndStoreEmbeddings`. `embed` models
`generateEmbedding` (it returns `none` when the backend is uninitialized or
its call errors), `store` models `storeEmbedding` (an `.error` value is the
insert throwing). Each iteration is wrapped in try/catch: a `none`
embedding is logged and skipped, a store error is caught and skipped, and
the loop continues; the successfully stored (chunk, embedding) pairs are
returned in order. -/
def processNoteChunks (embed : String → Option (List ℚ))
    (store : String → List ℚ → Except String Unit) :
    List String → List (String × List ℚ)
  | [] => []
  | c :: rest =>
    match embed c with
    | none => processNoteChunks embed store rest
    | some e =>
      match store c e with
      | .ok _ => (c, e) :: processNoteChunks embed store rest
      | .error _ => processNoteChunks embed store rest

/-! ## Cosine similarity (src/services/vector.ts) -/

/-- The dot-product loop
`for i in 0..length-1 { dot += a[i] * b[i] }` over the common indices. -/
def dotList (a b : List ℝ) : ℝ := (List.zipWith (fun x y => x * y) a b).sum

/-- The utility `cosineSimilarity(embedding1, embedding2)` of
src/services/vector.ts: it throws when the lengths differ, otherwise
returns the dot product divided by the product of the Euclidean norms.
Floating-point components are modelled as real numbers. -/
noncomputable def cosineSimilarity (a b : List ℝ) : Except String ℝ :=
  if a.length ≠ b.length then .error "Embeddings must have the same length"
  else .ok (dotList a b / (Real.sqrt (dotList a a) * Real.sqrt (dotList b b)))

/-! ## Helper lemmas about the vector store -/

/-- Renaming of the note a stored record belongs to. -/
def renameRec (f : String → String) (r : EmbeddingRecord) : EmbeddingRecord :=
  ⟨r.id, f r.noteId, r.chunk, r.embedding⟩

/-- Renaming of the note a result row reports. -/
def renameRow (f : String → String) (w : SimilarRow) : SimilarRow :=
  ⟨f w.noteId, w.chunk, w.distance⟩

theorem insertRow_map_rename (f : String → String) (r : SimilarRow) :
    ∀ l : List SimilarRow,
      insertRow (renameRow f r) (l.map (renameRow f)) = (insertRow r l).map (renameRow f)
  | [] => rfl
  | x :: xs => by
    simp only [List.map_cons, insertRow]
    have e1 : (renameRow f r).distance = r.distance := rfl
    have e2 : (renameRow f x).distance = x.distance := rfl
    rw [e1, e2]
    by_cases h : r.distance < x.distance
    · simp [h]
    · simp [h, insertRow_map_rename f r xs]

theorem sortByDistance_map_rename (f : String → String) :
    ∀ l : List SimilarRow,
      sortByDistance (l.map (renameRow f)) = (sortByDistance l).map (renameRow f)
  | [] => rfl
  | x :: xs => by
    simp only [List.map_cons, sortByDistance, sortByDistance_map_rename f xs]
    exact insertRow_map_rename f x (sortByDistance xs)

theorem mem_insertRow {a r : SimilarRow} :
    ∀ {l : List SimilarRow}, a ∈ insertRow r l → a = r ∨ a ∈ l
  | [], h => by
    simp only [insertRow, List.mem_singleton] at h
    exact Or.inl h
  | x :: xs, h => by
    simp only [insertRow] at h
    by_cases hc : r.distance < x.distance
    · rw [if_pos hc] at h
      rcases List.mem_cons.mp h with h1 | h1
      · exact Or.inl h1
      · exact Or.inr h1
    · rw [if_neg hc] at h
      rcases List.mem_cons.mp h with h1 | h1
      · exact Or.inr (List.mem_cons.mpr (Or.inl h1))
      · rcases mem_insertRow h1 with h2 | h2
        · exact Or.inl h2
        · exact Or.inr (List.mem_cons.mpr (Or.inr h2))

theorem mem_sortByDistance {a : SimilarRow} :
    ∀ {l : List SimilarRow}, a ∈ sortByDistance l → a ∈ l
  | [], h => h
  | x :: xs, h => by
    simp only [sortByDistance] at h
    rcases mem_insertRow h with h1 | h1
    · exact List.mem_cons.mpr (Or.inl h1)
    · exact List.mem_cons.mpr (Or.inr (mem_sortByDistance h1))

/-! ## Claims about the vector store -/

/-- C1. The claim says a supplied `noteId` scope restricts the k-nearest
neighbour search to records of that note. The search of the code has no
such scope: `findSimilarChunks(embedding, limit)` takes no `noteId`
argument and its query has no `noteId` predicate, so a search issued while
the chat screen is on note "n1" still returns records of note "n2".
Concretely, a store holding one record of each note yields a row of the
other note. -/
theorem C1_counterexample :
    (⟨"n2", "note-2 chunk", 1⟩ : SimilarRow) ∈
      findSimilarChunks
        (some [⟨"id0", "n1", "note-1 chunk", [0]⟩, ⟨"id1", "n2", "note-2 chunk", [1]⟩])
        (some [0]) 5
    ∧ ("n2" : String) ≠ "n1" := by
  constructor
  · have h : findSimilarChunks
        (some [⟨"id0", "n1", "note-1 chunk", [0]⟩, ⟨"id1", "n2", "note-2 chunk", [1]⟩])
        (some [0]) 5
        = [⟨"n1", "note-1 chunk", 0⟩, ⟨"n2", "note-2 chunk", 1⟩] := by
      norm_num [findSimilarChunks, rowOf, sqDist, sortByDistance, insertRow]
    rw [h]
    simp
  · decide

/-- C1, amended. `findSimilarChunks` performs no note scoping at all: the
`noteId` fields of the stored records are mere payload. Renaming every
record's `noteId` commutes with the whole search, so which records
participate, how they rank and which rows are returned is independent of
the notes they belong to; every search spans the records of all notes. -/
theorem C1_no_note_scoping (f : String → String) (recs : List EmbeddingRecord)
    (e : List ℚ) (k : Nat) :
    findSimilarChunks (some (recs.map (renameRec f))) (some e) k
      = (findSimilarChunks (some recs) (some e) k).map (renameRow f) := by
  simp only [findSimilarChunks, List.map_map]
  have hmap : List.map (rowOf e ∘ renameRec f) recs
      = List.map (renameRow f) (List.map (rowOf e) recs) := by
    rw [List.map_map]
    exact List.map_congr_left fun r _ => rfl
  rw [hmap, sortByDistance_map_rename, List.map_take]

/-- C4. The claim says the search fails with `StoreUnavailable` when the
persistence layer is not initialized. It does not fail: when
`getDatabase()` returns `null` the code logs and returns `[]`, an outcome
identical to a successful search over an initialized store holding zero
records, so the caller can observe no failure at all. -/
theorem C4_counterexample :
    findSimilarChunks none (some [(0 : ℚ)]) 5
      = findSimilarChunks (some []) (some [(0 : ℚ)]) 5 := by
  simp [findSimilarChunks, sortByDistance]

/-- C4, amended. An uninitialized store does not make `findSimilarChunks`
fail: it logs and returns the empty sequence; an initialized store with
zero records likewise yields the empty sequence (not an error). -/
theorem C4_uninitialized_and_empty_return_empty (e : List ℚ) (k : Nat) :
    findSimilarChunks none (some e) k = []
      ∧ findSimilarChunks (some []) (some e) k = [] :=
  ⟨rfl, by simp [findSimilarChunks, sortByDistance]⟩

/-- C5. The claim says `deleteAllForNote(id)` followed immediately by a
search scoped to `id` returns the empty sequence. Since `findSimilarChunks`
has no note scope, records of other notes are still returned: with one
record of "n1" and one of "n2", deleting "n1" and searching leaves a
non-empty result. -/
theorem C5_counterexample :
    findSimilarChunks
      (some (deleteNoteEmbeddings
        [⟨"id0", "n1", "note-1 chunk", [0]⟩, ⟨"id1", "n2", "note-2 chunk", [0]⟩] "n1"))
      (some [0]) 5 ≠ [] := by
  norm_num [findSimilarChunks, deleteNoteEmbeddings, rowOf, sqDist, sortByDistance, insertRow]

/-- C5, amended. After `deleteNoteEmbeddings(id)` an immediate search
returns no record of note `id` — all of its rows are gone — but the result
is not the empty sequence in general: the unscoped search still returns
the remaining notes' records. -/
theorem C5_no_deleted_note_rows (recs : List EmbeddingRecord) (noteId : String)
    (e : List ℚ) (k : Nat) (row : SimilarRow)
    (h : row ∈ findSimilarChunks (some (deleteNoteEmbeddings recs noteId)) (some e) k) :
    row.noteId ≠ noteId := by
  simp only [findSimilarChunks] at h
  have h1 : row ∈ sortByDistance ((deleteNoteEmbeddings recs noteId).map (rowOf e)) :=
    List.mem_of_mem_take h
  have h2 := mem_sortByDistance h1
  rcases List.mem_map.mp h2 with ⟨r, hr, hrow⟩
  rcases List.mem_filter.mp hr with ⟨_, hne⟩
  have hr' : r.noteId ≠ noteId := by simpa using hne
  rw [← hrow]
  exact hr'

/-- C5, witness: a store with a record of note "n2" remaining after the
records of note "n1" are deleted; the theorem applies to the returned row. -/
theorem C5_witness :
    (⟨"n2", "note-2 chunk", 0⟩ : SimilarRow).noteId ≠ "n1" :=
  C5_no_deleted_note_rows
    [⟨"id0", "n1", "note-1 chunk", [0]⟩, ⟨"id1", "n2", "note-2 chunk", [0]⟩]
    "n1" [0] 5 ⟨"n2", "note-2 chunk", 0⟩ (by
      have h : findSimilarChunks
          (some (deleteNoteEmbeddings
            [⟨"id0", "n1", "note-1 chunk", [0]⟩, ⟨"id1", "n2", "note-2 chunk", [0]⟩] "n1"))
          (some [0]) 5 = [⟨"n2", "note-2 chunk", 0⟩] := by
        norm_num [findSimilarChunks, deleteNoteEmbeddings, rowOf, sqDist,
          sortByDistance, insertRow]
      rw [h]
      simp)

/-- C10. A `null` query embedding — the value `generateEmbedding` produces
when the embedding backend is uninitialized or its call errors — makes
`findSimilarChunks` return the empty sequence at once: the result is the
same for every state of the store, including an uninitialized one, so no
store query is issued and no error is raised; retrieval silently degrades
to an empty context. -/
theorem C10_null_embedding_empty (db : Option (List EmbeddingRecord)) (k : Nat) :
    findSimilarChunks db none k = [] := rfl

/-! ## Claim about the batch embedding loop -/

theorem processNoteChunks_append (embed : String → Option (List ℚ))
    (store : String → List ℚ → Except String Unit) :
    ∀ l₁ l₂ : List String,
      processNoteChunks embed store (l₁ ++ l₂)
        = processNoteChunks embed store l₁ ++ processNoteChunks embed store l₂
  | [], l₂ => rfl
  | c :: rest, l₂ => by
    simp only [List.cons_append, processNoteChunks]
    cases hE : embed c with
    | none => exact processNoteChunks_append embed store rest l₂
    | some e =>
      cases hS : store c e with
      | ok u =>
        simp only [hS, List.cons_append]
        exact congrArg (List.cons (c, e)) (processNoteChunks_append embed store rest l₂)
      | error msg =>
        simp only [hS]
        exact processNoteChunks_append embed store rest l₂

/-- C7. During batch processing of one note's chunks, a chunk whose
embedding generation fails (`generateEmbedding` returns `null`) or whose
store insert throws is caught and skipped, and every remaining chunk is
still processed: the stored output for `pre ++ [c] ++ post` is exactly the
output for `pre` followed by the output for `post`, and the batch function
returns normally (its type carries no error), leaving the note partially
embedded rather than aborting the whole operation. -/
theorem C7_chunk_failure_skipped (embed : String → Option (List ℚ))
    (store : String → List ℚ → Except String Unit)
    (pre : List String) (c : String) (post : List String)
    (h : embed c = none ∨ ∃ e msg, embed c = some e ∧ store c e = Except.error msg) :
    processNoteChunks embed store (pre ++ c :: post)
      = processNoteChunks embed store pre ++ processNoteChunks embed store post := by
  rw [processNoteChunks_append]
  congr 1
  rcases h with h | ⟨e, msg, hE, hS⟩
  · simp [processNoteChunks, h]
  · simp [processNoteChunks, hE, hS]

/-- C7, witness: the middle chunk's insert throws; the surrounding chunks
are still embedded and stored. -/
theorem C7_witness :
    processNoteChunks (fun _ => some [1])
      (fun s _ => if s = "boom" then Except.error "fail" else Except.ok ())
      (["a"] ++ "boom" :: ["b"])
      = processNoteChunks (fun _ => some [1])
          (fun s _ => if s = "boom" then Except.error "fail" else Except.ok ()) ["a"]
        ++ processNoteChunks (fun _ => some [1])
          (fun s _ => if s = "boom" then Except.error "fail" else Except.ok ()) ["b"] :=
  C7_chunk_failure_skipped _ _ ["a"] "boom" ["b"]
    (Or.inr ⟨[1], "fail", rfl, by simp⟩)

/-! ## Claim about the retrieval session -/

theorem prepareTurn_used_grows (used : List String) (sim : List SimilarRow)
    (c : String) (h : c ∈ used) : c ∈ (prepareTurn used sim).used :=
  List.mem_append_left _ h

theorem prepareTurn_not_resurfaced (used : List String) (sim : List SimilarRow)
    (c : String) (h : c ∈ used) : c ∉ (prepareTurn used sim).contextChunks := by
  intro hmem
  rcases List.mem_map.mp hmem with ⟨r, hr, hrc⟩
  rcases List.mem_filter.mp hr with ⟨_, hcond⟩
  have hnot : r.chunk ∉ used := by simpa using hcond
  rw [← hrc] at h
  exact hnot h

theorem runSession_fresh_blocks (c : String) :
    ∀ (sims : List (List SimilarRow)) (used : List String), c ∈ used →
      ∀ blk ∈ runSession used sims, c ∉ blk
  | [], _, _, blk, hblk => by simp [runSession] at hblk
  | sim :: rest, used, hc, blk, hblk => by
    simp only [runSession, List.mem_cons] at hblk
    rcases hblk with h | h
    · rw [h]
      exact prepareTurn_not_resurfaced used sim c hc
    · exact runSession_fresh_blocks c rest (prepareTurn used sim).used
        (prepareTurn_used_grows used sim c hc) blk h

theorem runSession_pairwise (c : String) :
    ∀ (sims : List (List SimilarRow)) (used : List String) (i j : Nat)
      (hi : i < (runSession used sims).length) (hj : j < (runSession used sims).length),
      i < j → c ∈ (runSession used sims).get ⟨i, hi⟩ →
        c ∉ (runSession used sims).get ⟨j, hj⟩
  | [], _, i, _, hi, _, _, _ => by simp [runSession] at hi
  | _ :: _, _, 0, 0, _, _, hij, _ => absurd hij (Nat.lt_irrefl 0)
  | _ :: _, _, Nat.succ _, 0, _, _, hij, _ => absurd hij (by omega)
  | sim :: rest, used, 0, Nat.succ j, hi, hj, _, hc => by
    have hcu : c ∈ (prepareTurn used sim).used := List.mem_append_right _ hc
    exact runSession_fresh_blocks c rest (prepareTurn used sim).used hcu _
      (List.get_mem _ _ _)
  | sim :: rest, used, Nat.succ i, Nat.succ j, hi, hj, hij, hc =>
    runSession_pairwise c rest (prepareTurn used sim).used i j
      (Nat.lt_of_succ_lt_succ hi) (Nat.lt_of_succ_lt_succ hj)
      (Nat.lt_of_succ_lt_succ hij) hc

theorem contextChunks_eq_filtered (used : List String) (sim : List SimilarRow) :
    (prepareTurn used sim).contextChunks
      = (sim.map SimilarRow.chunk).filter (fun c => !(used.contains c)) := by
  rw [List.filter_map]
  rfl

/-- C3. Within one chat session (one `usedChunks` set threaded through
successive `handleSend` calls), a chunk text surfaced in an earlier turn
never reappears in a later turn even when retrieval ranks it in the later
top-k; the filter keeps exactly the retrieved chunk texts not yet in
`usedChunks`; and every surfaced chunk text is in the updated `usedChunks`
the turn hands to its successor. -/
theorem C3_session_never_resurfaces_chunk :
    (∀ (c : String) (sims : List (List SimilarRow)) (used : List String) (i j : Nat)
      (hi : i < (runSession used sims).length) (hj : j < (runSession used sims).length),
      i < j → c ∈ (runSession used sims).get ⟨i, hi⟩ →
        c ∉ (runSession used sims).get ⟨j, hj⟩)
    ∧ (∀ (used : List String) (sim : List SimilarRow),
      (prepareTurn used sim).contextChunks
        = (sim.map SimilarRow.chunk).filter (fun c => !(used.contains c)))
    ∧ (∀ (used : List String) (sim : List SimilarRow),
      ∀ c ∈ (prepareTurn used sim).contextChunks, c ∈ (prepareTurn used sim).used) :=
  ⟨fun c sims used i j hi hj hij hc => runSession_pairwise c sims used i j hi hj hij hc,
    contextChunks_eq_filtered,
    fun _ _ _ hc => List.mem_append_right _ hc⟩

/-! ## Helper lemmas about whitespace, trimming and the sentence splitter -/

theorem filter_notWs_dropWhile :
    ∀ l : List Char, (l.dropWhile isWs).filter (fun c => !isWs c)
      = l.filter (fun c => !isWs c)
  | [] => rfl
  | c :: cs => by
    cases hw : isWs c with
    | false => rw [List.dropWhile_cons, if_neg (by simp [hw])]
    | true =>
      rw [List.dropWhile_cons, if_pos (by simp [hw]), filter_notWs_dropWhile cs,
        List.filter_cons_of_neg (by simp [hw])]

theorem removeWs_append (l₁ l₂ : List Char) :
    removeWs (l₁ ++ l₂) = removeWs l₁ ++ removeWs l₂ := List.filter_append _ _

theorem removeWs_trim (cs : List Char) : removeWs (trim cs) = removeWs cs := by
  show (((cs.dropWhile isWs).reverse.dropWhile isWs).reverse).filter (fun c => !isWs c) = _
  rw [List.filter_reverse, filter_notWs_dropWhile, List.filter_reverse,
    List.reverse_reverse]
  exact filter_notWs_dropWhile cs

theorem trim_ne_nil_of_removeWs {cs : List Char} (h : removeWs cs ≠ []) :
    trim cs ≠ [] := by
  intro hnil
  apply h
  rw [← removeWs_trim, hnil]
  rfl

theorem dropWhile_isWs_idem :
    ∀ l : List Char, (l.dropWhile isWs).dropWhile isWs = l.dropWhile isWs
  | [] => rfl
  | c :: cs => by
    cases hw : isWs c with
    | true => rw [List.dropWhile_cons, if_pos (by simp [hw]), dropWhile_isWs_idem cs]
    | false =>
      rw [List.dropWhile_cons, if_neg (by simp [hw]), List.dropWhile_cons,
        if_neg (by simp [hw])]

theorem dropWhile_fixed_of_prefix {p : Char → Bool} :
    ∀ {l z : List Char}, l.dropWhile p = l → z <+: l → z.dropWhile p = z := by
  intro l z hl hz
  cases z with
  | nil => rfl
  | cons c t =>
    rcases hz with ⟨r, hr⟩
    by_cases hp : p c = true
    · exfalso
      rw [← hr, List.cons_append, List.dropWhile_cons, if_pos hp] at hl
      have hlen := congrArg List.length hl
      have hle : ((t ++ r).dropWhile p).length ≤ (t ++ r).length :=
        (List.dropWhile_suffix p).length_le
      simp only [List.length_cons] at hlen
      omega
    · rw [List.dropWhile_cons, if_neg hp]

theorem trim_idem (cs : List Char) : trim (trim cs) = trim cs := by
  have hy : (cs.dropWhile isWs).dropWhile isWs = cs.dropWhile isWs := dropWhile_isWs_idem cs
  have hpre : trim cs <+: cs.dropWhile isWs := by
    have hsuf : (cs.dropWhile isWs).reverse.dropWhile isWs <:+ (cs.dropWhile isWs).reverse :=
      List.dropWhile_suffix isWs
    have h2 := List.reverse_prefix.mpr hsuf
    rw [List.reverse_reverse] at h2
    exact h2
  have hz : (trim cs).dropWhile isWs = trim cs := dropWhile_fixed_of_prefix hy hpre
  have hrev : ((trim cs).reverse).dropWhile isWs = (trim cs).reverse := by
    show ((((cs.dropWhile isWs).reverse.dropWhile isWs).reverse).reverse).dropWhile isWs
        = (((cs.dropWhile isWs).reverse.dropWhile isWs).reverse).reverse
    rw [List.reverse_reverse]
    exact dropWhile_isWs_idem (cs.dropWhile isWs).reverse
  show (((trim cs).dropWhile isWs).reverse.dropWhile isWs).reverse = trim cs
  rw [hz, hrev, List.reverse_reverse]

theorem wordCount_trim (cs : List Char) : wordCount (trim cs) = wordCount cs := by
  unfold wordCount
  rw [trim_idem]

theorem sentAux_has_punct :
    ∀ (cs body punct : List Char), (∀ x ∈ punct, isPunct x = true) →
      ∀ s ∈ sentAux body punct cs, ∃ x ∈ s, isPunct x = true
  | [], body, punct, hp, s, hs => by
    simp only [sentAux] at hs
    by_cases hpe : punct = []
    · rw [if_pos hpe] at hs
      exact absurd hs (List.not_mem_nil s)
    · rw [if_neg hpe] at hs
      have hseq : s = body ++ punct := by simpa using hs
      rcases List.exists_mem_of_ne_nil punct hpe with ⟨x, hx⟩
      exact ⟨x, by rw [hseq]; exact List.mem_append_right body hx, hp x hx⟩
  | c :: cs, body, punct, hp, s, hs => by
    simp only [sentAux] at hs
    by_cases hc : isPunct c = true
    · rw [if_pos hc] at hs
      by_cases hbp : body = [] ∧ punct = []
      · rw [if_pos hbp] at hs
        exact sentAux_has_punct cs [] [] (by simp) s hs
      · rw [if_neg hbp] at hs
        refine sentAux_has_punct cs body (punct ++ [c]) ?_ s hs
        intro x hx
        rcases List.mem_append.mp hx with h | h
        · exact hp x h
        · rw [List.mem_singleton.mp h]
          exact hc
    · rw [if_neg hc] at hs
      by_cases hpe : punct = []
      · rw [if_pos hpe] at hs
        exact sentAux_has_punct cs (body ++ [c]) [] (by simp) s hs
      · rw [if_neg hpe] at hs
        rcases List.mem_cons.mp hs with h | h
        · rcases List.exists_mem_of_ne_nil punct hpe with ⟨x, hx⟩
          exact ⟨x, by rw [h]; exact List.mem_append_right body hx, hp x hx⟩
        · exact sentAux_has_punct cs [c] [] (by simp) s h

theorem isPunct_not_ws {c : Char} (h : isPunct c = true) : isWs c = false := by
  simp only [isPunct, Bool.or_eq_true, beq_iff_eq] at h
  rcases h with (h | h) | h <;> subst h <;> decide

theorem matchSentences_removeWs (cs : List Char) :
    ∀ s ∈ matchSentences cs, removeWs s ≠ [] := by
  intro s hs hnil
  rcases sentAux_has_punct cs [] [] (by simp) s hs with ⟨x, hxs, hx⟩
  have hmem : x ∈ removeWs s := List.mem_filter.mpr ⟨hxs, by simp [isPunct_not_ws hx]⟩
  rw [hnil] at hmem
  exact absurd hmem (List.not_mem_nil x)

theorem sentAux_nil_of_no_punct :
    ∀ (cs body : List Char), (∀ c ∈ cs, isPunct c = false) → sentAux body [] cs = []
  | [], _, _ => by simp [sentAux]
  | c :: cs, body, h => by
    have hc : isPunct c = false := h c (List.mem_cons_self c cs)
    simp only [sentAux]
    rw [if_neg (by simp [hc]), if_pos trivial]
    exact sentAux_nil_of_no_punct cs (body ++ [c]) fun x hx => h x (List.mem_cons_of_mem c hx)

/-! ## Helper lemmas about the chunk loop -/

theorem chunkLoop_acc (t : Nat) :
    ∀ (ss : List (List Char)) (cur : List Char) (acc : List (List Char)),
      chunkLoop t ss cur acc = acc ++ chunkLoop t ss cur []
  | [], cur, acc => by
    simp only [chunkLoop]
    by_cases h : trim cur = []
    · rw [if_pos h, if_pos h, List.append_nil]
    · rw [if_neg h, if_neg h, List.nil_append]
  | s :: ss, cur, acc => by
    simp only [chunkLoop]
    by_cases h : wordCount (cur ++ s) > t ∧ cur ≠ []
    · rw [if_pos h, if_pos h, chunkLoop_acc t ss s (acc ++ [trim cur]),
        chunkLoop_acc t ss s ([] ++ [trim cur]), List.nil_append, List.append_assoc]
    · rw [if_neg h, if_neg h]
      exact chunkLoop_acc t ss (cur ++ s) acc

theorem chunkLoop_ne_nil (t : Nat) :
    ∀ (ss : List (List Char)) (cur : List Char) (acc : List (List Char)),
      (∀ s ∈ ss, removeWs s ≠ []) →
      (cur = [] ∨ removeWs cur ≠ []) →
      (∀ c ∈ acc, c ≠ []) →
      ∀ c ∈ chunkLoop t ss cur acc, c ≠ []
  | [], cur, acc, _, hcur, hacc, c, hc => by
    simp only [chunkLoop] at hc
    by_cases ht : trim cur = []
    · rw [if_pos ht] at hc
      exact hacc c hc
    · rw [if_neg ht] at hc
      rcases List.mem_append.mp hc with h | h
      · exact hacc c h
      · rw [List.mem_singleton.mp h]
        exact ht
  | s :: ss, cur, acc, hss, hcur, hacc, c, hc => by
    simp only [chunkLoop] at hc
    by_cases hcond : wordCount (cur ++ s) > t ∧ cur ≠ []
    · rw [if_pos hcond] at hc
      refine chunkLoop_ne_nil t ss s (acc ++ [trim cur])
        (fun x hx => hss x (List.mem_cons_of_mem s hx))
        (Or.inr (hss s (List.mem_cons_self s ss))) ?_ c hc
      intro x hx
      rcases List.mem_append.mp hx with h | h
      · exact hacc x h
      · rw [List.mem_singleton.mp h]
        rcases hcur with h0 | hrw
        · exact absurd h0 hcond.2
        · exact trim_ne_nil_of_removeWs hrw
    · rw [if_neg hcond] at hc
      refine chunkLoop_ne_nil t ss (cur ++ s) acc
        (fun x hx => hss x (List.mem_cons_of_mem s hx)) ?_ hacc c hc
      rcases hcur with h0 | hrw
      · rw [h0, List.nil_append]
        exact Or.inr (hss s (List.mem_cons_self s ss))
      · refine Or.inr ?_
        rw [removeWs_append]
        intro hap
        exact hrw (List.append_eq_nil.mp hap).1

theorem chunkLoop_bounds (t : Nat) (sents : List (List Char)) :
    ∀ (ss : List (List Char)) (cur : List Char) (acc : List (List Char)),
      (∀ s ∈ ss, s ∈ sents) →
      (cur = [] ∨ (∃ s ∈ sents, cur = s) ∨ wordCount cur ≤ t) →
      (∀ c ∈ acc, wordCount c ≤ t ∨ ∃ s ∈ sents, c = trim s) →
      ∀ c ∈ chunkLoop t ss cur acc, wordCount c ≤ t ∨ ∃ s ∈ sents, c = trim s
  | [], cur, acc, _, hcur, hacc, c, hc => by
    simp only [chunkLoop] at hc
    by_cases ht : trim cur = []
    · rw [if_pos ht] at hc
      exact hacc c hc
    · rw [if_neg ht] at hc
      rcases List.mem_append.mp hc with h | h
      · exact hacc c h
      · rw [List.mem_singleton.mp h]
        rcases hcur with h0 | ⟨s, hs, hrw⟩ | hwc
        · rw [h0] at ht
          exact absurd rfl ht
        · exact Or.inr ⟨s, hs, by rw [hrw]⟩
        · exact Or.inl (by rw [wordCount_trim]; exact hwc)
  | s :: ss, cur, acc, hss, hcur, hacc, c, hc => by
    simp only [chunkLoop] at hc
    by_cases hcond : wordCount (cur ++ s) > t ∧ cur ≠ []
    · rw [if_pos hcond] at hc
      refine chunkLoop_bounds t sents ss s (acc ++ [trim cur])
        (fun x hx => hss x (List.mem_cons_of_mem s hx))
        (Or.inr (Or.inl ⟨s, hss s (List.mem_cons_self s ss), rfl⟩)) ?_ c hc
      intro x hx
      rcases List.mem_append.mp hx with h | h
      · exact hacc x h
      · rw [List.mem_singleton.mp h]
        rcases hcur with h0 | ⟨s', hs', hrw⟩ | hwc
        · exact absurd h0 hcond.2
        · exact Or.inr ⟨s', hs', by rw [hrw]⟩
        · exact Or.inl (by rw [wordCount_trim]; exact hwc)
    · rw [if_neg hcond] at hc
      refine chunkLoop_bounds t sents ss (cur ++ s) acc
        (fun x hx => hss x (List.mem_cons_of_mem s hx)) ?_ hacc c hc
      rcases not_and_or.mp hcond with h | h
      · exact Or.inr (Or.inr (Nat.le_of_not_lt h))
      · rw [not_not.mp h, List.nil_append]
        exact Or.inr (Or.inl ⟨s, hss s (List.mem_cons_self s ss), rfl⟩)

/-! ## Claims about the chunker -/

/-- C6. The chunker never emits an empty chunk, and every chunk — the last
included, which is stronger than the claim needs — either has word count at
most `targetWordCount` or is the trim of a single sentence of the
splitter's sentence list (the case of one sentence exceeding the target on
its own, which then forms its own chunk). -/
theorem C6_chunk_bounds (text : List Char) (target : Nat) :
    (∀ c ∈ splitIntoChunks text target, c ≠ [])
    ∧ (∀ c ∈ splitIntoChunks text target,
        wordCount c ≤ target ∨ ∃ s ∈ sentencesOf text, c = trim s) := by
  constructor
  · by_cases hm : matchSentences text = []
    · intro c hc
      unfold splitIntoChunks at hc
      rw [sentencesOf, if_pos hm] at hc
      simp only [chunkLoop] at hc
      rw [if_neg (fun hcond => hcond.2 rfl), List.nil_append] at hc
      by_cases ht : trim text = []
      · rw [if_pos ht] at hc
        exact absurd hc (List.not_mem_nil c)
      · rw [if_neg ht, List.nil_append] at hc
        rw [List.mem_singleton.mp hc]
        exact ht
    · intro c hc
      unfold splitIntoChunks at hc
      rw [sentencesOf, if_neg hm] at hc
      exact chunkLoop_ne_nil target (matchSentences text) [] []
        (matchSentences_removeWs text) (Or.inl rfl) (by simp) c hc
  · exact chunkLoop_bounds target (sentencesOf text) (sentencesOf text) [] []
      (fun s hs => hs) (Or.inl rfl) (by simp)

/-- C8. The claim includes every non-empty input without terminal
punctuation, but a whitespace-only input is non-empty, has no terminal
punctuation, and yields zero chunks rather than one chunk equal to its
(empty) trim: the final buffer is only flushed when its trim is non-empty. -/
theorem C8_counterexample :
    (" ".toList ≠ ([] : List Char))
    ∧ (∀ c ∈ " ".toList, isPunct c = false)
    ∧ splitIntoChunks " ".toList 300 ≠ [trim " ".toList] := by
  refine ⟨by decide, by decide, by decide⟩

/-- C8, amended. For an input with no sentence-terminal punctuation whose
trim is non-empty, the chunker returns exactly one chunk, the trimmed
input; when the trim is empty — the empty input and whitespace-only
inputs — it returns the empty sequence. -/
theorem C8_no_punct_single_chunk (text : List Char) (target : Nat)
    (hp : ∀ c ∈ text, isPunct c = false) :
    (trim text ≠ [] → splitIntoChunks text target = [trim text])
    ∧ (trim text = [] → splitIntoChunks text target = []) := by
  have hm : matchSentences text = [] := sentAux_nil_of_no_punct text [] hp
  unfold splitIntoChunks
  rw [sentencesOf, if_pos hm]
  simp only [chunkLoop]
  rw [if_neg (fun hcond => hcond.2 rfl), List.nil_append]
  constructor
  · intro ht
    rw [if_neg ht, List.nil_append]
  · intro ht
    rw [if_pos ht]

/-- C8, witness: a single-word input with no punctuation returns itself. -/
theorem C8_witness :
    splitIntoChunks "hello world".toList 300 = [trim "hello world".toList] :=
  (C8_no_punct_single_chunk "hello world".toList 300 (by decide)).1 (by decide)

theorem flatten_removeWs_ne_nil {pre : List (List Char)} (hpre : pre ≠ [])
    (hws : ∀ s ∈ pre, removeWs s ≠ []) : removeWs pre.flatten ≠ [] := by
  rcases pre with _ | ⟨p, pre2⟩
  · exact absurd rfl hpre
  · rw [List.flatten_cons, removeWs_append]
    intro hap
    exact hws p (List.mem_cons_self p pre2) (List.append_eq_nil.mp hap).1

/-- Greedy grouping of the sentence list: the chunks emitted from a
non-empty pending buffer holding exactly the sentences `pre` are the
per-group trimmed concatenations of a partition of `pre ++ ss` into
non-empty consecutive groups, those trimming to empty dropped. -/
theorem chunkLoop_grouping (t : Nat) :
    ∀ (ss pre : List (List Char)), pre ≠ [] →
      (∀ s ∈ pre ++ ss, removeWs s ≠ []) →
      ∃ gs : List (List (List Char)),
        gs.flatten = pre ++ ss ∧ (∀ g ∈ gs, g ≠ []) ∧
        chunkLoop t ss pre.flatten []
          = (gs.map (fun g => trim g.flatten)).filter (fun c => c ≠ [])
  | [], pre, hpre, hws => by
    refine ⟨[pre], by simp, by simp [hpre], ?_⟩
    have hnn : removeWs pre.flatten ≠ [] :=
      flatten_removeWs_ne_nil hpre fun s hs => hws s (by simpa using hs)
    have htr : trim pre.flatten ≠ [] := trim_ne_nil_of_removeWs hnn
    simp only [chunkLoop]
    rw [if_neg htr, List.nil_append, List.map_cons, List.map_nil,
      List.filter_cons_of_pos (by simpa using htr), List.filter_nil]
  | s :: ss, pre, hpre, hws => by
    have hpj : removeWs pre.flatten ≠ [] :=
      flatten_removeWs_ne_nil hpre fun x hx =>
        hws x (List.mem_append_left _ hx)
    have hpfne : pre.flatten ≠ [] := fun h => hpj (by rw [h]; rfl)
    by_cases hw : wordCount (pre.flatten ++ s) > t
    · have hws2 : ∀ x ∈ ([s] : List (List Char)) ++ ss, removeWs x ≠ [] := by
        intro x hx
        exact hws x (List.mem_append_right pre hx)
      rcases chunkLoop_grouping t ss [s] (by simp) hws2 with ⟨gs, hflat, hne, heq⟩
      have hsfl : ([s] : List (List Char)).flatten = s := by simp
      rw [hsfl] at heq
      have htr : trim pre.flatten ≠ [] := trim_ne_nil_of_removeWs hpj
      refine ⟨pre :: gs, ?_, ?_, ?_⟩
      · rw [List.flatten_cons, hflat]
        rfl
      · intro g hg
        rcases List.mem_cons.mp hg with h | h
        · rw [h]
          exact hpre
        · exact hne g h
      · simp only [chunkLoop]
        rw [if_pos ⟨hw, hpfne⟩, chunkLoop_acc t ss s ([] ++ [trim pre.flatten]),
          List.nil_append, List.map_cons,
          List.filter_cons_of_pos (by simpa using htr), ← heq]
        rfl
    · have hcond : ¬(wordCount (pre.flatten ++ s) > t ∧ pre.flatten ≠ []) :=
        fun hh => hw hh.1
      have hws2 : ∀ x ∈ (pre ++ [s]) ++ ss, removeWs x ≠ [] := by
        intro x hx
        rw [List.append_assoc] at hx
        exact hws x hx
      rcases chunkLoop_grouping t ss (pre ++ [s]) (by simp) hws2 with ⟨gs, hflat, hne, heq⟩
      refine ⟨gs, ?_, hne, ?_⟩
      · rw [hflat, List.append_assoc]
        rfl
      · simp only [chunkLoop]
        rw [if_neg hcond]
        have hfl : (pre ++ [s]).flatten = pre.flatten ++ s := by simp
        rw [← hfl]
        exact heq

theorem removeWs_flatten_filter :
    ∀ gs : List (List (List Char)),
      removeWs ((gs.map (fun g => trim g.flatten)).filter (fun c => c ≠ [])).flatten
        = removeWs gs.flatten.flatten
  | [] => rfl
  | g :: gs => by
    by_cases h : trim g.flatten = []
    · rw [List.map_cons, List.filter_cons_of_neg (by simp [h]), List.flatten_cons,
        List.flatten_append, removeWs_append, removeWs_flatten_filter gs]
      have hg : removeWs g.flatten = [] := by
        rw [← removeWs_trim, h]
        rfl
      rw [hg, List.nil_append]
    · rw [List.map_cons, List.filter_cons_of_pos (by simpa using h), List.flatten_cons,
        removeWs_append, removeWs_trim, List.flatten_cons, List.flatten_append,
        removeWs_append, removeWs_flatten_filter gs]

/-- C2. The claim says a trailing fragment with no terminal punctuation is
its own sentence and no sentence is ever dropped. With at least one
complete sentence present, the regex match drops the unterminated trailing
fragment: for "A. B" the chunker returns only "A." and the fragment "B" is
absent from every chunk. -/
theorem C2_counterexample :
    splitIntoChunks "A. B".toList 300 = ["A.".toList]
    ∧ 'B' ∈ "A. B".toList
    ∧ 'B' ∉ (splitIntoChunks "A. B".toList 300).flatten := by
  refine ⟨by decide, by decide, by decide⟩

/-- C2, amended. Chunk boundaries fall only at sentence boundaries and the
final non-empty buffer is flushed, but the sentence sequence chunking
reproduces is the regex match list: the complete sentences only, a
trailing unterminated fragment being dropped whenever a complete sentence
exists, and the whole input standing as the single sentence only when no
sentence matches. Formally the chunk list is a consecutive grouping of the
splitter's sentence list — each chunk the trimmed concatenation of one
non-empty group, groups trimming to empty dropped — and the concatenation
of all chunks carries exactly the non-whitespace character sequence of the
splitter's sentences, none dropped or duplicated. -/
theorem C2_chunks_reproduce_code_sentences (text : List Char) (target : Nat) :
    removeWs (splitIntoChunks text target).flatten
      = removeWs (sentencesOf text).flatten
    ∧ ∃ gs : List (List (List Char)),
        gs.flatten = sentencesOf text ∧ (∀ g ∈ gs, g ≠ [])
        ∧ splitIntoChunks text target
            = (gs.map (fun g => trim g.flatten)).filter (fun c => c ≠ []) := by
  have hex : ∃ gs : List (List (List Char)),
      gs.flatten = sentencesOf text ∧ (∀ g ∈ gs, g ≠ [])
      ∧ splitIntoChunks text target
          = (gs.map (fun g => trim g.flatten)).filter (fun c => c ≠ []) := by
    by_cases hm : matchSentences text = []
    · refine ⟨[[text]], by simp [sentencesOf, hm], by simp, ?_⟩
      unfold splitIntoChunks
      rw [sentencesOf, if_pos hm]
      simp only [chunkLoop]
      rw [if_neg (fun hcond => hcond.2 rfl), List.nil_append]
      have hfl : ([text] : List (List Char)).flatten = text := by simp
      rw [List.map_cons, List.map_nil, hfl]
      by_cases ht : trim text = []
      · rw [if_pos ht, List.filter_cons_of_neg (by simp [ht]), List.filter_nil]
      · rw [if_neg ht, List.filter_cons_of_pos (by simpa using ht), List.filter_nil,
          List.nil_append]
    · rcases hm2 : matchSentences text with _ | ⟨m, mrest⟩
      · exact absurd hm2 hm
      · have hws : ∀ x ∈ ([m] : List (List Char)) ++ mrest, removeWs x ≠ [] := by
          intro x hx
          apply matchSentences_removeWs text
          rw [hm2]
          exact hx
        rcases chunkLoop_grouping target mrest [m] (by simp) hws with ⟨gs, hflat, hne, heq⟩
        refine ⟨gs, ?_, hne, ?_⟩
        · rw [hflat, sentencesOf, if_neg hm, hm2]
          rfl
        · unfold splitIntoChunks
          rw [sentencesOf, if_neg hm, hm2]
          simp only [chunkLoop]
          rw [if_neg (fun hcond => hcond.2 rfl), List.nil_append]
          have hfl : ([m] : List (List Char)).flatten = m := by simp
          rw [← hfl]
          exact heq
  refine ⟨?_, hex⟩
  rcases hex with ⟨gs, hflat, hne, heq⟩
  rw [heq, ← hflat]
  exact removeWs_flatten_filter gs

/-! ## Helper lemmas about cosine similarity (Cauchy-Schwarz for list dot
products, by the discriminant argument) -/

/-- Sum of squares of the left entries over the common indices. -/
noncomputable def zipSqLeft (a b : List ℝ) : ℝ :=
  (List.zipWith (fun x _ => x * x) a b).sum

/-- Sum of squares of the right entries over the common indices. -/
noncomputable def zipSqRight (a b : List ℝ) : ℝ :=
  (List.zipWith (fun _ y => y * y) a b).sum

theorem dotList_self_nonneg : ∀ v : List ℝ, 0 ≤ dotList v v
  | [] => le_refl 0
  | x :: v => by
    show 0 ≤ x * x + dotList v v
    exact add_nonneg (mul_self_nonneg x) (dotList_self_nonneg v)

theorem zipSqLeft_nonneg : ∀ a b : List ℝ, 0 ≤ zipSqLeft a b
  | [], _ => le_refl 0
  | _ :: _, [] => le_refl 0
  | x :: a, _ :: b => by
    show 0 ≤ x * x + zipSqLeft a b
    exact add_nonneg (mul_self_nonneg x) (zipSqLeft_nonneg a b)

theorem zipSqRight_nonneg : ∀ a b : List ℝ, 0 ≤ zipSqRight a b
  | [], _ => le_refl 0
  | _ :: _, [] => le_refl 0
  | _ :: a, y :: b => by
    show 0 ≤ y * y + zipSqRight a b
    exact add_nonneg (mul_self_nonneg y) (zipSqRight_nonneg a b)

theorem zipSqLeft_le : ∀ a b : List ℝ, zipSqLeft a b ≤ dotList a a
  | [], _ => le_refl 0
  | x :: a, [] => dotList_self_nonneg (x :: a)
  | x :: a, _ :: b => by
    show x * x + zipSqLeft a b ≤ x * x + dotList a a
    exact add_le_add_left (zipSqLeft_le a b) _

theorem zipSqRight_le : ∀ a b : List ℝ, zipSqRight a b ≤ dotList b b
  | [], b => dotList_self_nonneg b
  | _ :: _, [] => le_refl 0
  | _ :: a, y :: b => by
    show y * y + zipSqRight a b ≤ y * y + dotList b b
    exact add_le_add_left (zipSqRight_le a b) _

theorem zip_expand : ∀ (a b : List ℝ) (t : ℝ),
    (List.zipWith (fun x y => (x + t * y) * (x + t * y)) a b).sum
      = zipSqLeft a b + 2 * t * dotList a b + t ^ 2 * zipSqRight a b
  | [], b, t => by simp [zipSqLeft, zipSqRight, dotList]
  | x :: a, [], t => by simp [zipSqLeft, zipSqRight, dotList]
  | x :: a, y :: b, t => by
    have ih := zip_expand a b t
    show (x + t * y) * (x + t * y)
        + (List.zipWith (fun x y => (x + t * y) * (x + t * y)) a b).sum
      = (x * x + zipSqLeft a b) + 2 * t * (x * y + dotList a b)
        + t ^ 2 * (y * y + zipSqRight a b)
    rw [ih]
    ring

theorem zip_expand_nonneg : ∀ (a b : List ℝ) (t : ℝ),
    0 ≤ (List.zipWith (fun x y => (x + t * y) * (x + t * y)) a b).sum
  | [], _, _ => le_refl 0
  | _ :: _, [], _ => le_refl 0
  | x :: a, y :: b, t => by
    show 0 ≤ (x + t * y) * (x + t * y)
        + (List.zipWith (fun x y => (x + t * y) * (x + t * y)) a b).sum
    exact add_nonneg (mul_self_nonneg _) (zip_expand_nonneg a b t)

theorem dotList_eq_zero_of_zipSqRight :
    ∀ a b : List ℝ, zipSqRight a b = 0 → dotList a b = 0
  | [], _, _ => rfl
  | _ :: _, [], _ => rfl
  | x :: a, y :: b, h => by
    have h' : y * y + zipSqRight a b = 0 := h
    have h1 : y * y = 0 := by nlinarith [mul_self_nonneg y, zipSqRight_nonneg a b]
    have h2 : zipSqRight a b = 0 := by nlinarith [mul_self_nonneg y, zipSqRight_nonneg a b]
    have hy : y = 0 := mul_self_eq_zero.mp h1
    show x * y + dotList a b = 0
    rw [hy, mul_zero, dotList_eq_zero_of_zipSqRight a b h2, add_zero]

theorem dotList_sq_le_zipSq (a b : List ℝ) :
    dotList a b ^ 2 ≤ zipSqLeft a b * zipSqRight a b := by
  by_cases hB : zipSqRight a b = 0
  · rw [hB, mul_zero, dotList_eq_zero_of_zipSqRight a b hB]
    norm_num
  · have hBpos : 0 < zipSqRight a b :=
      lt_of_le_of_ne (zipSqRight_nonneg a b) (Ne.symm hB)
    have hq := zip_expand_nonneg a b (-(dotList a b / zipSqRight a b))
    rw [zip_expand a b (-(dotList a b / zipSqRight a b))] at hq
    have hkey : zipSqLeft a b
        + 2 * (-(dotList a b / zipSqRight a b)) * dotList a b
        + (-(dotList a b / zipSqRight a b)) ^ 2 * zipSqRight a b
        = zipSqLeft a b - dotList a b ^ 2 / zipSqRight a b := by
      field_simp
      ring
    rw [hkey] at hq
    have h2 : dotList a b ^ 2 / zipSqRight a b ≤ zipSqLeft a b := by linarith
    have h3 := mul_le_mul_of_nonneg_right h2 (le_of_lt hBpos)
    rwa [div_mul_cancel₀ _ (ne_of_gt hBpos)] at h3

theorem dotList_sq_le (a b : List ℝ) :
    dotList a b ^ 2 ≤ dotList a a * dotList b b :=
  le_trans (dotList_sq_le_zipSq a b)
    (mul_le_mul (zipSqLeft_le a b) (zipSqRight_le a b) (zipSqRight_nonneg a b)
      (dotList_self_nonneg a))

theorem abs_dotList_le (a b : List ℝ) :
    |dotList a b| ≤ Real.sqrt (dotList a a) * Real.sqrt (dotList b b) := by
  have h := dotList_sq_le a b
  have hA := dotList_self_nonneg a
  have habs : |dotList a b| = Real.sqrt (dotList a b ^ 2) :=
    (Real.sqrt_sq_eq_abs _).symm
  rw [habs, ← Real.sqrt_mul hA]
  exact Real.sqrt_le_sqrt h

theorem dotList_self_pos : ∀ {v : List ℝ}, (∃ x ∈ v, x ≠ 0) → 0 < dotList v v
  | [], h => absurd h.choose_spec.1 (List.not_mem_nil h.choose)
  | y :: v, h => by
    rcases h with ⟨x, hx, hxne⟩
    show 0 < y * y + dotList v v
    rcases List.mem_cons.mp hx with heq | hmem
    · have hy : y ≠ 0 := by rw [← heq]; exact hxne
      have := mul_self_pos.mpr hy
      have := dotList_self_nonneg v
      linarith
    · have := dotList_self_pos ⟨x, hmem, hxne⟩
      have := mul_self_nonneg y
      linarith

/-! ## Claim about cosine similarity -/

/-- C9. The utility fails (throws) exactly when the two vectors have
different lengths; on equal lengths it returns the dot product over the
product of the Euclidean norms, a value in the interval [-1, 1] by the
Cauchy-Schwarz inequality (a zero denominator following the real-field
convention x / 0 = 0 of the model), and a vector with a non-zero component
has similarity 1 with itself. -/
theorem C9_cosineSimilarity_props (a b : List ℝ) :
    ((∃ r, cosineSimilarity a b = Except.ok r) ↔ a.length = b.length)
    ∧ (∀ r, cosineSimilarity a b = Except.ok r → -1 ≤ r ∧ r ≤ 1)
    ∧ ((∃ x ∈ a, x ≠ 0) → cosineSimilarity a a = Except.ok 1) := by
  refine ⟨⟨?_, ?_⟩, ?_, ?_⟩
  · rintro ⟨r, hr⟩
    by_contra hne
    rw [cosineSimilarity, if_pos hne] at hr
    exact Except.noConfusion hr
  · intro hlen
    exact ⟨_, by rw [cosineSimilarity, if_neg (not_not_intro hlen)]⟩
  · intro r hr
    by_cases hlen : a.length ≠ b.length
    · rw [cosineSimilarity, if_pos hlen] at hr
      exact Except.noConfusion hr
    · rw [cosineSimilarity, if_neg hlen] at hr
      have hrv : dotList a b / (Real.sqrt (dotList a a) * Real.sqrt (dotList b b)) = r :=
        Except.ok.inj hr
    
      by_cases hd : Real.sqrt (dotList a a) * Real.sqrt (dotList b b) = 0
      · rw [← hrv, hd, div_zero]
        norm_num
      · have hdpos : 0 < Real.sqrt (dotList a a) * Real.sqrt (dotList b b) :=
          lt_of_le_of_ne
            (mul_nonneg (Real.sqrt_nonneg _) (Real.sqrt_nonneg _)) (Ne.symm hd)
        have habs : |r| ≤ 1 := by
          rw [← hrv, abs_div, abs_of_pos hdpos]
          exact (div_le_one hdpos).mpr (abs_dotList_le a b)
        exact abs_le.mp habs
  · rintro ⟨x, hx, hxne⟩
    have hpos : 0 < dotList a a := dotList_self_pos ⟨x, hx, hxne⟩
    rw [cosineSimilarity, if_neg (not_not_intro rfl)]
    have hsq : Real.sqrt (dotList a a) * Real.sqrt (dotList a a) = dotList a a :=
      Real.mul_self_sqrt (le_of_lt hpos)
    rw [hsq, div_self (ne_of_gt hpos)]

end JotItNow
